import Mathlib

/-!
Verification of a positional tree-diff / patch-projection library.

The library defines an immutable ordered tree (`Node`), a patch variant
(`Patch`), a positional diff (`diff` built from `walk` and `diff_children`)
that records patches in a position-indexed map, and a patch applier
(`patch` built from `apply`) that replays the patch set over the original
tree and emits an indented, change-annotated textual listing.

Modelling choices:
- The value type `T : Eq` becomes a type `α` with `DecidableEq α`.
- `Rc<Node<T>>` sharing is irrelevant to observable behaviour; nodes are a
  plain inductive.
- The `HashMap<u32, Patch>` is modelled as an association list recorded in
  insertion order, looked up by first match.  Key uniqueness of every map
  produced by `diff` is proved below (`walk_bounds`), which makes the
  first-match lookup semantics coincide with hash-map semantics
  (insertion never overwrites an existing key).
- `println!` output is modelled as a list of emitted lines.
- The `Display` bound becomes an explicit rendering function `disp : α → String`.
-/

universe u

/-- One tree vertex: optional identity key, a value, ordered children. -/
inductive Node (α : Type u) : Type u where
  | mk : Option String → α → List (Node α) → Node α

namespace Node

/-- The optional identity key of a node. -/
def key {α : Type u} : Node α → Option String
  | mk k _ _ => k

/-- The value payload of a node. -/
def value {α : Type u} : Node α → α
  | mk _ v _ => v

/-- The ordered children of a node. -/
def children {α : Type u} : Node α → List (Node α)
  | mk _ _ cs => cs

theorem sizeOf_children_lt {α : Type u} [SizeOf α] (n : Node α) :
    sizeOf n.children < sizeOf n := by
  cases n with
  | mk k v cs => simp [children]

end Node

/-- A patch at one position: replace the subtree, append sibling subtrees,
or remove the subtree. -/
inductive Patch (α : Type u) : Type u where
  | Update : Node α → Patch α
  | Insert : List (Node α) → Patch α
  | Remove : Patch α

/-- The patch set: a position-indexed collection of patches, modelled as an
association list in insertion order (keys are proved unique below). -/
abbrev PatchSet (α : Type u) : Type u := List (Nat × Patch α)

/-- Lookup of a position in a patch set (first match; equivalent to the
hash-map lookup because keys are unique in every patch set `diff` builds). -/
def lookupPatch {α : Type u} : PatchSet α → Nat → Option (Patch α)
  | [], _ => none
  | (k, p) :: rest, i => if k = i then some p else lookupPatch rest i

section Diff

variable {α : Type u} [DecidableEq α]

mutual

/-- `walk a b` at the current position: equal values descend into the
children comparison; unequal values record `Update b` at the current
position and stop.  Returns the recorded patches (in insertion order)
together with the final counter value. -/
def walk (a b : Node α) (index : Nat) : PatchSet α × Nat :=
  if a.value = b.value then
    diff_children a.children b.children index
  else
    ([(index, Patch.Update b)], index)
termination_by 2 * sizeOf a
decreasing_by
  simp_wf
  have h := Node.sizeOf_children_lt a
  omega

/-- Child-list comparison: the positional loop over `a`'s children followed
by the trailing-children `Insert` recorded at the parent's own position. -/
def diff_children (a_children b_children : List (Node α)) (index : Nat) :
    PatchSet α × Nat :=
  let parent_index := index
  let r := diffLoop a_children b_children index
  if b_children.length > a_children.length then
    (r.1 ++ [(parent_index, Patch.Insert (b_children.drop a_children.length))], r.2)
  else
    r
termination_by 2 * sizeOf a_children + 1
decreasing_by
  simp_wf

/-- The `for i in 0..a_len` loop of `diff_children`: increment the counter
first, then either record `Remove` (when `b` has no child at this slot) or
recurse into `walk` on the paired children. -/
def diffLoop (a_children b_children : List (Node α)) (index : Nat) :
    PatchSet α × Nat :=
  match a_children, b_children with
  | [], _ => ([], index)
  | _ :: arest, [] =>
    let r := diffLoop arest [] (index + 1)
    ((index + 1, Patch.Remove) :: r.1, r.2)
  | a :: arest, b :: brest =>
    let r1 := walk a b (index + 1)
    let r2 := diffLoop arest brest r1.2
    (r1.1 ++ r2.1, r2.2)
termination_by 2 * sizeOf a_children
decreasing_by
  all_goals simp_wf
  all_goals omega

end

/-- The public diff: walk the two roots with the shared counter starting
at 0 and return the accumulated patch set. -/
def diff (a b : Node α) : PatchSet α :=
  (walk a b 0).1

end Diff

section Render

variable {α : Type u}

/-- Indentation: `n` copies of two spaces concatenated. -/
def indent (n : Nat) : String :=
  String.join (List.replicate n "  ")

/-- Render one node's line: indentation, the value's textual rendering,
and the fixed change marker suffix exactly when `change` is set. -/
def print (disp : α → String) (node : Node α) (depth : Nat) (change : Bool) : String :=
  if change then
    indent depth ++ disp node.value ++ "(*)"
  else
    indent depth ++ disp node.value

mutual

/-- Render a whole subtree, every node marked as changed, children one
level deeper. -/
def print_rec (disp : α → String) (node : Node α) (depth : Nat) : List String :=
  print disp node depth true :: printRecList disp node.children (depth + 1)
termination_by sizeOf node
decreasing_by
  simp_wf
  exact Node.sizeOf_children_lt node

/-- The child loop of `print_rec`. -/
def printRecList (disp : α → String) (nodes : List (Node α)) (depth : Nat) : List String :=
  match nodes with
  | [] => []
  | c :: crest => print_rec disp c depth ++ printRecList disp crest depth
termination_by sizeOf nodes
decreasing_by
  all_goals simp_wf
  all_goals omega

end

mutual

/-- The patch applier: look the current position up in the patch set and
render accordingly (`Update`: replacement subtree fully marked, original
children skipped; `Insert`: node, then existing children, then inserted
subtrees fully marked; `Remove`: nothing; no entry: node then children). -/
def apply (disp : α → String) (node : Node α) (patches : PatchSet α)
    (index : Nat) (depth : Nat) : List String × Nat :=
  match lookupPatch patches index with
  | some (Patch.Update n) => (print_rec disp n depth, index)
  | some (Patch.Insert nodes) =>
    let r := applyChildren disp node.children patches index depth
    (print disp node depth false ::
      (r.1 ++ (nodes.map fun n => print_rec disp n (depth + 1)).flatten), r.2)
  | some Patch.Remove => ([], index)
  | none =>
    let r := applyChildren disp node.children patches index depth
    (print disp node depth false :: r.1, r.2)
termination_by sizeOf node
decreasing_by
  all_goals simp_wf
  all_goals exact Node.sizeOf_children_lt node

/-- The child loop of `apply`: increment the counter before each child,
recurse one level deeper, thread the counter left to right. -/
def applyChildren (disp : α → String) (nodes : List (Node α)) (patches : PatchSet α)
    (index : Nat) (depth : Nat) : List String × Nat :=
  match nodes with
  | [] => ([], index)
  | c :: crest =>
    let r1 := apply disp c patches (index + 1) (depth + 1)
    let r2 := applyChildren disp crest patches r1.2 depth
    (r1.1 ++ r2.1, r2.2)
termination_by sizeOf nodes
decreasing_by
  all_goals simp_wf
  all_goals omega

end

/-- The public applier: replay the patch set over the original tree from
position 0 and depth 0, returning the emitted lines. -/
def patch (disp : α → String) (root : Node α) (patches : PatchSet α) : List String :=
  (apply disp root patches 0 0).1

mutual

/-- Number of nodes in a tree. -/
def size : Node α → Nat
  | Node.mk _ _ cs => 1 + sizeList cs
termination_by n => sizeOf n
decreasing_by
  simp_wf

/-- Total number of nodes in a list of trees. -/
def sizeList : List (Node α) → Nat
  | [] => 0
  | c :: crest => size c + sizeList crest
termination_by ns => sizeOf ns
decreasing_by
  all_goals simp_wf
  all_goals omega

end

end Render

section AuxDefinitions

variable {α : Type u} [DecidableEq α]

mutual

/-- Modelled from the spec: a plain indented pre-order traversal of a
tree, one unmarked line per node, children one level deeper.  This is the
reference rendering the identity property compares against. -/
def plainRender (disp : α → String) (node : Node α) (depth : Nat) : List String :=
  print disp node depth false :: plainRenderList disp node.children (depth + 1)
termination_by sizeOf node
decreasing_by
  simp_wf
  exact Node.sizeOf_children_lt node

/-- Modelled from the spec: the child loop of `plainRender`. -/
def plainRenderList (disp : α → String) (nodes : List (Node α)) (depth : Nat) : List String :=
  match nodes with
  | [] => []
  | c :: crest => plainRender disp c depth ++ plainRenderList disp crest depth
termination_by sizeOf nodes
decreasing_by
  all_goals simp_wf
  all_goals omega

end

mutual

/-- Modelled from the spec: the annotated projection of the new tree that
diff-then-apply is meant to produce for a compared pair.  Matched nodes
render unmarked and descend; a value mismatch renders the replacement
subtree fully marked; dropped original children render nothing; trailing
new children render fully marked after the surviving children. -/
def renderBoth (disp : α → String) (a b : Node α) (depth : Nat) : List String :=
  if a.value = b.value then
    print disp a depth false ::
      (renderBothChildren disp a.children b.children (depth + 1) ++
        ((b.children.drop a.children.length).map fun n => print_rec disp n (depth + 1)).flatten)
  else
    print_rec disp b depth
termination_by 2 * sizeOf a
decreasing_by
  simp_wf
  have := Node.sizeOf_children_lt a
  omega

/-- Modelled from the spec: the child part of `renderBoth` over the paired
and dropped child slots. -/
def renderBothChildren (disp : α → String) (cs ds : List (Node α)) (depth : Nat) : List String :=
  match cs, ds with
  | [], _ => []
  | _ :: crest, [] => renderBothChildren disp crest [] depth
  | c :: crest, d :: drest =>
    renderBoth disp c d depth ++ renderBothChildren disp crest drest depth
termination_by 2 * sizeOf cs
decreasing_by
  all_goals simp_wf
  all_goals omega

end

/-- The child loop of the diff written exactly as the source writes it —
an index `i` running over `0 .. a_len` with bracket indexing into both
child vectors — where every indexing step is fallible (`none` models an
out-of-bounds panic).  Used to prove the indexing is in fact always in
bounds. -/
def diffLoopIdx (a_children b_children : List (Node α)) (i : Nat) (index : Nat) :
    Option (PatchSet α × Nat) :=
  if i < a_children.length then
    if i ≥ b_children.length then
      match diffLoopIdx a_children b_children (i + 1) (index + 1) with
      | none => none
      | some (ps, idx2) => some (((index + 1, Patch.Remove) :: ps), idx2)
    else
      match a_children[i]?, b_children[i]? with
      | some a, some b =>
        match diffLoopIdx a_children b_children (i + 1) (walk a b (index + 1)).2 with
        | none => none
        | some (ps, idx2) => some ((walk a b (index + 1)).1 ++ ps, idx2)
      | _, _ => none
  else
    some ([], index)
termination_by a_children.length - i

/-- The trailing-insert collection loop of the source, with fallible
indexing into `b_children`. -/
def insertsIdx (b_children : List (Node α)) (i : Nat) : Option (List (Node α)) :=
  if i < b_children.length then
    match b_children[i]?, insertsIdx b_children (i + 1) with
    | some b, some rest => some (b :: rest)
    | _, _ => none
  else
    some []
termination_by b_children.length - i

/-- The full child comparison with source-style indexing, fallible. -/
def diff_childrenIdx (a_children b_children : List (Node α)) (index : Nat) :
    Option (PatchSet α × Nat) :=
  match diffLoopIdx a_children b_children 0 index with
  | none => none
  | some (ps, idx2) =>
    if b_children.length > a_children.length then
      match insertsIdx b_children a_children.length with
      | none => none
      | some ins => some (ps ++ [(index, Patch.Insert ins)], idx2)
    else
      some (ps, idx2)

mutual

/-- Erase every identity key in a tree, keeping values and structure. -/
def stripKeys : Node α → Node α
  | Node.mk _ v cs => Node.mk none v (stripKeysList cs)
termination_by n => sizeOf n
decreasing_by
  simp_wf

/-- Erase every identity key in a list of trees. -/
def stripKeysList : List (Node α) → List (Node α)
  | [] => []
  | c :: crest => stripKeys c :: stripKeysList crest
termination_by ns => sizeOf ns
decreasing_by
  all_goals simp_wf
  all_goals omega

end

/-- Erase the identity keys inside a patch's payload. -/
def stripPatch : Patch α → Patch α
  | Patch.Update n => Patch.Update (stripKeys n)
  | Patch.Insert ns => Patch.Insert (stripKeysList ns)
  | Patch.Remove => Patch.Remove

/-- Erase the identity keys inside every patch of a patch set. -/
def stripPS (ps : PatchSet α) : PatchSet α :=
  ps.map fun e => (e.1, stripPatch e.2)

/-- The original tree of the test harness (`node1`). -/
def node1 : Node String :=
  Node.mk none "root" [
    Node.mk (some "child1") "child1" [Node.mk none "child1-1" []],
    Node.mk (some "child2") "child2" [Node.mk none "child2-1" [], Node.mk none "child2-2" []],
    Node.mk (some "child3") "child3" []]

/-- The new tree of the test harness (`node2`). -/
def node2 : Node String :=
  Node.mk none "root" [
    Node.mk (some "child1") "child1" [],
    Node.mk (some "child2") "child2" [
      Node.mk none "child2-2" [],
      Node.mk none "child2-1" [Node.mk none "child2-1-1" []]],
    Node.mk (some "child4") "child4" [],
    Node.mk (some "child5") "child5" [],
    Node.mk (some "child6") "child6" [Node.mk none "child6-1" []]]

/-- Statement helper: whether a patch is an `Update`. -/
def Patch.isUpdateB {α : Type u} : Patch α → Bool
  | Patch.Update _ => true
  | _ => false

/-- Statement helper: whether a patch is a `Remove`. -/
def Patch.isRemoveB {α : Type u} : Patch α → Bool
  | Patch.Remove => true
  | _ => false

end AuxDefinitions

section Lemmas

@[simp] theorem Node.key_mk {α : Type u} (k : Option String) (v : α) (cs : List (Node α)) :
    (Node.mk k v cs).key = k := rfl

@[simp] theorem Node.value_mk {α : Type u} (k : Option String) (v : α) (cs : List (Node α)) :
    (Node.mk k v cs).value = v := rfl

@[simp] theorem Node.children_mk {α : Type u} (k : Option String) (v : α) (cs : List (Node α)) :
    (Node.mk k v cs).children = cs := rfl

@[simp] theorem lookupPatch_nil {α : Type u} (i : Nat) :
    lookupPatch ([] : PatchSet α) i = none := rfl

theorem lookupPatch_cons {α : Type u} (k : Nat) (p : Patch α) (rest : PatchSet α) (i : Nat) :
    lookupPatch ((k, p) :: rest) i = if k = i then some p else lookupPatch rest i := rfl

variable {α : Type u} [DecidableEq α]

theorem walk_unfold (a b : Node α) (idx : Nat) :
    walk a b idx =
      if a.value = b.value then diff_children a.children b.children idx
      else ([(idx, Patch.Update b)], idx) := by
  rw [walk]

theorem diff_children_unfold (cs ds : List (Node α)) (idx : Nat) :
    diff_children cs ds idx =
      if ds.length > cs.length then
        ((diffLoop cs ds idx).1 ++ [(idx, Patch.Insert (ds.drop cs.length))],
          (diffLoop cs ds idx).2)
      else diffLoop cs ds idx := by
  rw [diff_children]

@[simp] theorem diffLoop_nil (ds : List (Node α)) (idx : Nat) :
    diffLoop ([] : List (Node α)) ds idx = ([], idx) := by
  rw [diffLoop]

@[simp] theorem diffLoop_cons_nil (c : Node α) (crest : List (Node α)) (idx : Nat) :
    diffLoop (c :: crest) ([] : List (Node α)) idx =
      ((idx + 1, Patch.Remove) :: (diffLoop crest [] (idx + 1)).1,
        (diffLoop crest [] (idx + 1)).2) := by
  rw [diffLoop]

@[simp] theorem diffLoop_cons_cons (c d : Node α) (crest drest : List (Node α)) (idx : Nat) :
    diffLoop (c :: crest) (d :: drest) idx =
      ((walk c d (idx + 1)).1 ++ (diffLoop crest drest (walk c d (idx + 1)).2).1,
        (diffLoop crest drest (walk c d (idx + 1)).2).2) := by
  rw [diffLoop]

end Lemmas

section SizeLemmas

variable {α : Type u}

@[simp] theorem sizeList_nil : sizeList ([] : List (Node α)) = 0 := by
  rw [sizeList]

@[simp] theorem sizeList_cons (c : Node α) (crest : List (Node α)) :
    sizeList (c :: crest) = size c + sizeList crest := by
  rw [sizeList]

@[simp] theorem size_mk (k : Option String) (v : α) (cs : List (Node α)) :
    size (Node.mk k v cs) = 1 + sizeList cs := by
  rw [size]

theorem size_eq_children (n : Node α) : size n = 1 + sizeList n.children := by
  cases n with
  | mk k v cs => simp

theorem size_pos (n : Node α) : 0 < size n := by
  rw [size_eq_children]; omega

end SizeLemmas

section Bounds

variable {α : Type u} [DecidableEq α]

mutual

/-- Counter monotonicity, counter upper bound, key range and key
uniqueness for `walk`: the final counter moves forward by at most the
number of proper descendants of `a`, every recorded position lies between
the entry counter and the final counter, and no position is recorded
twice. -/
theorem walk_bounds (a b : Node α) (idx : Nat) :
    idx ≤ (walk a b idx).2 ∧ (walk a b idx).2 ≤ idx + sizeList a.children ∧
    (∀ k ∈ (walk a b idx).1.map Prod.fst, idx ≤ k ∧ k ≤ (walk a b idx).2) ∧
    ((walk a b idx).1.map Prod.fst).Nodup := by
  rw [walk_unfold]
  by_cases h : a.value = b.value
  · simp only [if_pos h, diff_children_unfold]
    have hl := diffLoop_bounds a.children b.children idx
    obtain ⟨h1, h2, h3, h4⟩ := hl
    by_cases hlen : b.children.length > a.children.length
    · simp only [if_pos hlen, List.map_append, List.map_cons, List.map_nil]
      refine ⟨h1, h2, ?_, ?_⟩
      · intro k hk
        rcases List.mem_append.1 hk with hk | hk
        · exact ⟨by have := (h3 k hk).1; omega, (h3 k hk).2⟩
        · simp at hk
          subst hk
          exact ⟨Nat.le_refl _, h1⟩
      · refine List.Nodup.append h4 (List.nodup_singleton idx) ?_
        intro k hk hk'
        simp at hk'
        subst hk'
        have := (h3 k hk).1
        omega
    · simp only [if_neg hlen]
      refine ⟨h1, h2, ?_, h4⟩
      intro k hk
      exact ⟨by have := (h3 k hk).1; omega, (h3 k hk).2⟩
  · simp only [if_neg h]
    refine ⟨Nat.le_refl idx, by omega, ?_, by simp⟩
    intro k hk
    simp at hk
    subst hk
    exact ⟨Nat.le_refl _, Nat.le_refl _⟩
termination_by 2 * sizeOf a
decreasing_by
  simp_wf
  have := Node.sizeOf_children_lt a
  omega

/-- Counter monotonicity, counter upper bound, key range and key
uniqueness for the child loop of the diff: recorded positions are strictly
greater than the entry counter. -/
theorem diffLoop_bounds (cs ds : List (Node α)) (idx : Nat) :
    idx ≤ (diffLoop cs ds idx).2 ∧ (diffLoop cs ds idx).2 ≤ idx + sizeList cs ∧
    (∀ k ∈ (diffLoop cs ds idx).1.map Prod.fst, idx + 1 ≤ k ∧ k ≤ (diffLoop cs ds idx).2) ∧
    ((diffLoop cs ds idx).1.map Prod.fst).Nodup := by
  cases cs with
  | nil => simp
  | cons c crest =>
    cases ds with
    | nil =>
      have hr := diffLoop_bounds crest [] (idx + 1)
      obtain ⟨h1, h2, h3, h4⟩ := hr
      have hc := size_pos c
      simp only [diffLoop_cons_nil, List.map_cons, sizeList_cons]
      refine ⟨by omega, by omega, ?_, ?_⟩
      · intro k hk
        rcases List.mem_cons.1 hk with hk | hk
        · subst hk
          exact ⟨Nat.le_refl _, h1⟩
        · exact ⟨by have := (h3 k hk).1; omega, (h3 k hk).2⟩
      · refine List.nodup_cons.2 ⟨?_, h4⟩
        intro hmem
        have := (h3 _ hmem).1
        omega
    | cons d drest =>
      have h1 := walk_bounds c d (idx + 1)
      obtain ⟨ha1, ha2, ha3, ha4⟩ := h1
      have h2 := diffLoop_bounds crest drest (walk c d (idx + 1)).2
      obtain ⟨hb1, hb2, hb3, hb4⟩ := h2
      have hc := size_eq_children c
      simp only [diffLoop_cons_cons, List.map_append, sizeList_cons]
      refine ⟨by omega, by omega, ?_, ?_⟩
      · intro k hk
        rcases List.mem_append.1 hk with hk | hk
        · exact ⟨(ha3 k hk).1, by have := (ha3 k hk).2; omega⟩
        · exact ⟨by have := (hb3 k hk).1; omega, (hb3 k hk).2⟩
      · refine List.Nodup.append ha4 hb4 ?_
        intro k hk hk'
        have := (ha3 k hk).2
        have := (hb3 k hk').1
        omega
termination_by 2 * sizeOf cs
decreasing_by
  all_goals simp_wf
  all_goals omega

end

end Bounds

section LookupLemmas

variable {α : Type u}

theorem lookupPatch_eq_none {ps : PatchSet α} {i : Nat}
    (h : i ∉ ps.map Prod.fst) : lookupPatch ps i = none := by
  induction ps with
  | nil => rfl
  | cons e rest ih =>
    obtain ⟨k, p⟩ := e
    simp at h
    rw [lookupPatch_cons, if_neg (fun hh => h.1 hh.symm)]
    exact ih (by simp [h.2])

theorem lookupPatch_append_of_none {ps : PatchSet α} {i : Nat} (qs : PatchSet α)
    (h : lookupPatch ps i = none) :
    lookupPatch (ps ++ qs) i = lookupPatch qs i := by
  induction ps with
  | nil => rfl
  | cons e rest ih =>
    obtain ⟨k, p⟩ := e
    rw [lookupPatch_cons] at h
    by_cases hk : k = i
    · rw [if_pos hk] at h
      exact absurd h (by simp)
    · rw [List.cons_append, lookupPatch_cons, if_neg hk]
      exact ih (by rw [if_neg hk] at h; exact h)

theorem lookupPatch_append_of_some {ps : PatchSet α} {i : Nat} {p : Patch α} (qs : PatchSet α)
    (h : lookupPatch ps i = some p) :
    lookupPatch (ps ++ qs) i = some p := by
  induction ps with
  | nil => simp at h
  | cons e rest ih =>
    obtain ⟨k, q⟩ := e
    rw [lookupPatch_cons] at h
    by_cases hk : k = i
    · rw [if_pos hk] at h
      rw [List.cons_append, lookupPatch_cons, if_pos hk]
      exact h
    · rw [List.cons_append, lookupPatch_cons, if_neg hk]
      exact ih (by rw [if_neg hk] at h; exact h)

end LookupLemmas

section SelfDiff

variable {α : Type u} [DecidableEq α]

mutual

/-- Diffing a tree against itself records nothing and advances the counter
by the number of proper descendants. -/
theorem walk_self (a : Node α) (idx : Nat) :
    walk a a idx = ([], idx + sizeList a.children) := by
  rw [walk_unfold, if_pos rfl, diff_children_unfold, if_neg (by omega),
    diffLoop_self a.children idx]
termination_by 2 * sizeOf a
decreasing_by
  simp_wf
  have := Node.sizeOf_children_lt a
  omega

/-- The child loop on two identical child lists records nothing and
advances the counter by the total node count of the list. -/
theorem diffLoop_self (cs : List (Node α)) (idx : Nat) :
    diffLoop cs cs idx = ([], idx + sizeList cs) := by
  cases cs with
  | nil => simp
  | cons c crest =>
    rw [diffLoop_cons_cons, walk_self c (idx + 1),
      diffLoop_self crest (idx + 1 + sizeList c.children)]
    have := size_eq_children c
    simp only [sizeList_cons, List.nil_append, Prod.mk.injEq]
    exact ⟨trivial, by omega⟩
termination_by 2 * sizeOf cs
decreasing_by
  all_goals simp_wf
  all_goals omega

end

end SelfDiff

section PlainRender

variable {α : Type u}


mutual

/-- Applying an empty patch set renders the plain traversal and advances
the counter by the number of proper descendants. -/
theorem apply_nil (disp : α → String) (n : Node α) (idx depth : Nat) :
    apply disp n [] idx depth = (plainRender disp n depth, idx + sizeList n.children) := by
  rw [apply, plainRender]
  simp only [lookupPatch_nil]
  rw [applyChildren_nil disp n.children idx depth]
termination_by sizeOf n
decreasing_by
  simp_wf
  exact Node.sizeOf_children_lt n

/-- The child loop of `apply` on an empty patch set renders the plain
traversal of the children. -/
theorem applyChildren_nil (disp : α → String) (cs : List (Node α)) (idx depth : Nat) :
    applyChildren disp cs [] idx depth =
      (plainRenderList disp cs (depth + 1), idx + sizeList cs) := by
  cases cs with
  | nil => rw [applyChildren, plainRenderList]; simp
  | cons c crest =>
    rw [applyChildren, plainRenderList,
      apply_nil disp c (idx + 1) (depth + 1),
      applyChildren_nil disp crest (idx + 1 + sizeList c.children) depth]
    have := size_eq_children c
    simp only [sizeList_cons, Prod.mk.injEq]
    exact ⟨trivial, by omega⟩
termination_by sizeOf cs
decreasing_by
  all_goals simp_wf
  all_goals omega

end

mutual

/-- The plain traversal emits exactly one line per node. -/
theorem plainRender_length (disp : α → String) (n : Node α) (depth : Nat) :
    (plainRender disp n depth).length = size n := by
  rw [plainRender, size_eq_children]
  simp only [List.length_cons]
  rw [plainRenderList_length disp n.children (depth + 1)]
  omega
termination_by sizeOf n
decreasing_by
  simp_wf
  exact Node.sizeOf_children_lt n

/-- The plain traversal of a child list emits one line per node. -/
theorem plainRenderList_length (disp : α → String) (cs : List (Node α)) (depth : Nat) :
    (plainRenderList disp cs depth).length = sizeList cs := by
  cases cs with
  | nil => rw [plainRenderList]; simp
  | cons c crest =>
    rw [plainRenderList]
    simp only [List.length_append]
    rw [plainRender_length disp c depth, plainRenderList_length disp crest depth]
    simp
termination_by sizeOf cs
decreasing_by
  all_goals simp_wf
  all_goals omega

end

end PlainRender

section Simulation

variable {α : Type u} [DecidableEq α]


theorem renderBoth_unfold (disp : α → String) (a b : Node α) (depth : Nat) :
    renderBoth disp a b depth =
      if a.value = b.value then
        print disp a depth false ::
          (renderBothChildren disp a.children b.children (depth + 1) ++
            ((b.children.drop a.children.length).map fun n => print_rec disp n (depth + 1)).flatten)
      else
        print_rec disp b depth := by
  rw [renderBoth]

@[simp] theorem renderBothChildren_nil (disp : α → String) (ds : List (Node α)) (depth : Nat) :
    renderBothChildren disp ([] : List (Node α)) ds depth = [] := by
  rw [renderBothChildren]

@[simp] theorem renderBothChildren_cons_nil (disp : α → String) (c : Node α)
    (crest : List (Node α)) (depth : Nat) :
    renderBothChildren disp (c :: crest) ([] : List (Node α)) depth =
      renderBothChildren disp crest [] depth := by
  rw [renderBothChildren]

@[simp] theorem renderBothChildren_cons_cons (disp : α → String) (c d : Node α)
    (crest drest : List (Node α)) (depth : Nat) :
    renderBothChildren disp (c :: crest) (d :: drest) depth =
      renderBoth disp c d depth ++ renderBothChildren disp crest drest depth := by
  rw [renderBothChildren]

omit [DecidableEq α] in
theorem apply_unfold (disp : α → String) (node : Node α) (patches : PatchSet α)
    (index depth : Nat) :
    apply disp node patches index depth =
      match lookupPatch patches index with
      | some (Patch.Update n) => (print_rec disp n depth, index)
      | some (Patch.Insert nodes) =>
        ((print disp node depth false ::
          ((applyChildren disp node.children patches index depth).1 ++
            (nodes.map fun n => print_rec disp n (depth + 1)).flatten)),
          (applyChildren disp node.children patches index depth).2)
      | some Patch.Remove => ([], index)
      | none =>
        ((print disp node depth false ::
          (applyChildren disp node.children patches index depth).1),
          (applyChildren disp node.children patches index depth).2) := by
  rw [apply]

omit [DecidableEq α] in
@[simp] theorem applyChildren_nil_list (disp : α → String) (patches : PatchSet α)
    (index depth : Nat) :
    applyChildren disp ([] : List (Node α)) patches index depth = ([], index) := by
  rw [applyChildren]

omit [DecidableEq α] in
@[simp] theorem applyChildren_cons (disp : α → String) (c : Node α) (crest : List (Node α))
    (patches : PatchSet α) (index depth : Nat) :
    applyChildren disp (c :: crest) patches index depth =
      ((apply disp c patches (index + 1) (depth + 1)).1 ++
        (applyChildren disp crest patches
          (apply disp c patches (index + 1) (depth + 1)).2 depth).1,
        (applyChildren disp crest patches
          (apply disp c patches (index + 1) (depth + 1)).2 depth).2) := by
  rw [applyChildren]

end Simulation



section SimProof

variable {α : Type u} [DecidableEq α]

/-- Both halves of the diff/apply alignment invariant, stated for all
inputs below a size bound so that the two halves can be proved by one
strong induction: replaying the patches `walk` recorded (inside any patch
set agreeing with them on the counter range `walk` used) makes the applier
finish at the diff's final counter and render the annotated projection;
likewise for the child loop. -/
theorem sim_main (N : Nat) :
    (∀ (disp : α → String) (a b : Node α) (idx depth : Nat) (P : PatchSet α),
      sizeOf a ≤ N →
      (∀ k, idx ≤ k → k ≤ (walk a b idx).2 →
        lookupPatch P k = lookupPatch (walk a b idx).1 k) →
      apply disp a P idx depth = (renderBoth disp a b depth, (walk a b idx).2)) ∧
    (∀ (disp : α → String) (cs ds : List (Node α)) (idx depth : Nat) (P : PatchSet α),
      sizeOf cs ≤ N →
      (∀ k, idx + 1 ≤ k → k ≤ (diffLoop cs ds idx).2 →
        lookupPatch P k = lookupPatch (diffLoop cs ds idx).1 k) →
      applyChildren disp cs P idx depth =
        (renderBothChildren disp cs ds (depth + 1), (diffLoop cs ds idx).2)) := by
  induction N using Nat.strong_induction_on with
  | _ N IH =>
    constructor
    · intro disp a b idx depth P hsize H
      by_cases h : a.value = b.value
      · rw [walk_unfold, if_pos h, diff_children_unfold] at H ⊢
        obtain ⟨hm1, hm2, hk, hnd⟩ := diffLoop_bounds a.children b.children idx
        have hrec : sizeOf a.children < N :=
          Nat.lt_of_lt_of_le (Node.sizeOf_children_lt a) hsize
        have hchildIH := (IH (sizeOf a.children) hrec).2 disp a.children b.children
        by_cases hlen : b.children.length > a.children.length
        · rw [if_pos hlen] at H ⊢
          have hnone : lookupPatch (diffLoop a.children b.children idx).1 idx = none := by
            refine lookupPatch_eq_none ?_
            intro hmem
            have := (hk idx hmem).1
            omega
          have hlook : lookupPatch P idx =
              some (Patch.Insert (b.children.drop a.children.length)) := by
            rw [H idx (Nat.le_refl idx) hm1]
            rw [lookupPatch_append_of_none _ hnone, lookupPatch_cons, if_pos rfl]
          have hagree : ∀ k, idx + 1 ≤ k → k ≤ (diffLoop a.children b.children idx).2 →
              lookupPatch P k = lookupPatch (diffLoop a.children b.children idx).1 k := by
            intro k hk1 hk2
            rw [H k (by omega) (by exact hk2)]
            cases hcl : lookupPatch (diffLoop a.children b.children idx).1 k with
            | some p => rw [lookupPatch_append_of_some _ hcl]
            | none =>
              rw [lookupPatch_append_of_none _ hcl, lookupPatch_cons,
                if_neg (by omega), lookupPatch_nil]
          have hchild := hchildIH idx depth P (Nat.le_refl _) hagree
          rw [apply_unfold, hlook]
          simp only
          rw [hchild, renderBoth_unfold, if_pos h]
        · rw [if_neg hlen] at H ⊢
          have hnone : lookupPatch P idx = none := by
            rw [H idx (Nat.le_refl idx) hm1]
            refine lookupPatch_eq_none ?_
            intro hmem
            have := (hk idx hmem).1
            omega
          have hagree : ∀ k, idx + 1 ≤ k → k ≤ (diffLoop a.children b.children idx).2 →
              lookupPatch P k = lookupPatch (diffLoop a.children b.children idx).1 k := by
            intro k hk1 hk2
            exact H k (by omega) hk2
          have hchild := hchildIH idx depth P (Nat.le_refl _) hagree
          rw [apply_unfold, hnone]
          simp only
          rw [hchild, renderBoth_unfold, if_pos h]
          have hdrop : b.children.drop a.children.length = [] :=
            List.drop_eq_nil_of_le (by omega)
          rw [hdrop]
          simp
      · rw [walk_unfold, if_neg h] at H ⊢
        have hlook : lookupPatch P idx = some (Patch.Update b) := by
          rw [H idx (Nat.le_refl idx) (Nat.le_refl idx), lookupPatch_cons, if_pos rfl]
        rw [apply_unfold, hlook]
        simp only
        rw [renderBoth_unfold, if_neg h]
    · intro disp cs ds idx depth P hsize H
      cases cs with
      | nil => simp
      | cons c crest =>
        have hcons : sizeOf (c :: crest : List (Node α)) = 1 + sizeOf c + sizeOf crest := by
          simp
        have hsc : sizeOf c < N := by omega
        have hscrest : sizeOf crest < N := by omega
        cases ds with
        | nil =>
          rw [diffLoop_cons_nil] at H ⊢
          obtain ⟨hm1, hm2, hkk, hnd⟩ := diffLoop_bounds crest ([] : List (Node α)) (idx + 1)
          have hlook : lookupPatch P (idx + 1) = some Patch.Remove := by
            rw [H (idx + 1) (Nat.le_refl _) hm1, lookupPatch_cons, if_pos rfl]
          have happ : apply disp c P (idx + 1) (depth + 1) = (([] : List String), idx + 1) := by
            rw [apply_unfold, hlook]
          have hagree : ∀ k, idx + 1 + 1 ≤ k → k ≤ (diffLoop crest [] (idx + 1)).2 →
              lookupPatch P k = lookupPatch (diffLoop crest [] (idx + 1)).1 k := by
            intro k hk1 hk2
            rw [H k (by omega) hk2, lookupPatch_cons, if_neg (by omega)]
          have hrest := (IH (sizeOf crest) hscrest).2 disp crest ([] : List (Node α))
            (idx + 1) depth P (Nat.le_refl _) hagree
          rw [applyChildren_cons, happ]
          simp only [List.nil_append]
          rw [hrest, renderBothChildren_cons_nil]
        | cons d drest =>
          rw [diffLoop_cons_cons] at H ⊢
          obtain ⟨hw1, hw2, hwk, hwnd⟩ := walk_bounds c d (idx + 1)
          obtain ⟨hl1, hl2, hlk, hlnd⟩ :=
            diffLoop_bounds crest drest (walk c d (idx + 1)).2
          have hagree1 : ∀ k, idx + 1 ≤ k → k ≤ (walk c d (idx + 1)).2 →
              lookupPatch P k = lookupPatch (walk c d (idx + 1)).1 k := by
            intro k hk1 hk2
            rw [H k hk1 (by omega)]
            cases hcl : lookupPatch (walk c d (idx + 1)).1 k with
            | some p => rw [lookupPatch_append_of_some _ hcl]
            | none =>
              rw [lookupPatch_append_of_none _ hcl]
              have hr : lookupPatch (diffLoop crest drest (walk c d (idx + 1)).2).1 k = none := by
                refine lookupPatch_eq_none ?_
                intro hmem
                have := (hlk k hmem).1
                omega
              rw [hr]
          have happ := (IH (sizeOf c) hsc).1 disp c d (idx + 1) (depth + 1) P
            (Nat.le_refl _) hagree1
          have hagree2 : ∀ k, (walk c d (idx + 1)).2 + 1 ≤ k →
              k ≤ (diffLoop crest drest (walk c d (idx + 1)).2).2 →
              lookupPatch P k = lookupPatch (diffLoop crest drest (walk c d (idx + 1)).2).1 k := by
            intro k hk1 hk2
            rw [H k (by omega) hk2]
            have hnone : lookupPatch (walk c d (idx + 1)).1 k = none := by
              refine lookupPatch_eq_none ?_
              intro hmem
              have := (hwk k hmem).2
              omega
            rw [lookupPatch_append_of_none _ hnone]
          have hrest := (IH (sizeOf crest) hscrest).2 disp crest drest
            (walk c d (idx + 1)).2 depth P (Nat.le_refl _) hagree2
          rw [applyChildren_cons, happ]
          simp only
          rw [hrest, renderBothChildren_cons_cons]

/-- Specialisation of `sim_main` to the subtree pair itself. -/
theorem apply_walk_sim (disp : α → String) (a b : Node α) (idx depth : Nat) (P : PatchSet α)
    (H : ∀ k, idx ≤ k → k ≤ (walk a b idx).2 →
      lookupPatch P k = lookupPatch (walk a b idx).1 k) :
    apply disp a P idx depth = (renderBoth disp a b depth, (walk a b idx).2) :=
  (sim_main (sizeOf a)).1 disp a b idx depth P (Nat.le_refl _) H

end SimProof

section IndexedDiff

variable {α : Type u} [DecidableEq α]


omit [DecidableEq α] in
theorem insertsIdx_eq (bc : List (Node α)) (i : Nat) :
    insertsIdx bc i = some (bc.drop i) := by
  have key : ∀ n i, bc.length - i ≤ n → insertsIdx bc i = some (bc.drop i) := by
    intro n
    induction n with
    | zero =>
      intro i h
      rw [insertsIdx, if_neg (by omega), List.drop_eq_nil_of_le (by omega)]
    | succ m ih =>
      intro i h
      rw [insertsIdx]
      by_cases hi : i < bc.length
      · rw [if_pos hi, List.getElem?_eq_getElem hi, ih (i + 1) (by omega)]
        simp only
        rw [← List.getElem_cons_drop bc i hi]
      · rw [if_neg hi, List.drop_eq_nil_of_le (by omega)]
  exact key bc.length i (by omega)

theorem diffLoopIdx_eq (cs ds : List (Node α)) (i idx : Nat) :
    diffLoopIdx cs ds i idx = some (diffLoop (cs.drop i) (ds.drop i) idx) := by
  have key : ∀ n i idx, cs.length - i ≤ n →
      diffLoopIdx cs ds i idx = some (diffLoop (cs.drop i) (ds.drop i) idx) := by
    intro n
    induction n with
    | zero =>
      intro i idx h
      rw [diffLoopIdx, if_neg (by omega), List.drop_eq_nil_of_le (by omega), diffLoop_nil]
    | succ m ih =>
      intro i idx h
      rw [diffLoopIdx]
      by_cases hi : i < cs.length
      · rw [if_pos hi]
        by_cases hbi : i ≥ ds.length
        · rw [if_pos hbi, ih (i + 1) (idx + 1) (by omega)]
          simp only
          rw [← List.getElem_cons_drop cs i hi,
            @List.drop_eq_nil_of_le _ ds i (by omega),
            @List.drop_eq_nil_of_le _ ds (i + 1) (by omega),
            diffLoop_cons_nil]
        · rw [if_neg hbi]
          have hdi : i < ds.length := by omega
          rw [List.getElem?_eq_getElem hi, List.getElem?_eq_getElem hdi]
          simp only
          rw [ih (i + 1) (walk cs[i] ds[i] (idx + 1)).2 (by omega)]
          simp only
          rw [← List.getElem_cons_drop cs i hi, ← List.getElem_cons_drop ds i hdi,
            diffLoop_cons_cons]
      · rw [if_neg hi, List.drop_eq_nil_of_le (by omega), diffLoop_nil]
  exact key cs.length i idx (by omega)

/-- The indexed, fallible child comparison never goes out of bounds and
agrees with the structural one. -/
theorem diff_childrenIdx_eq (ac bc : List (Node α)) (idx : Nat) :
    diff_childrenIdx ac bc idx = some (diff_children ac bc idx) := by
  rw [diff_childrenIdx, diffLoopIdx_eq ac bc 0 idx]
  simp only [List.drop_zero]
  by_cases hlen : bc.length > ac.length
  · rw [if_pos hlen, insertsIdx_eq bc ac.length]
    simp only
    rw [diff_children_unfold, if_pos hlen]
  · rw [if_neg hlen, diff_children_unfold, if_neg hlen]

end IndexedDiff

section Strip

variable {α : Type u}


theorem stripKeysList_eq_map (ns : List (Node α)) :
    stripKeysList ns = ns.map stripKeys := by
  induction ns with
  | nil => rw [stripKeysList]; rfl
  | cons c crest ih => rw [stripKeysList, ih]; rfl

@[simp] theorem stripKeys_value (n : Node α) : (stripKeys n).value = n.value := by
  cases n with
  | mk k v cs => rw [stripKeys]; rfl

@[simp] theorem stripKeys_children (n : Node α) :
    (stripKeys n).children = stripKeysList n.children := by
  cases n with
  | mk k v cs => rw [stripKeys]; rfl

@[simp] theorem stripKeysList_length (ns : List (Node α)) :
    (stripKeysList ns).length = ns.length := by
  rw [stripKeysList_eq_map, List.length_map]

theorem stripKeysList_drop (ns : List (Node α)) (m : Nat) :
    stripKeysList (ns.drop m) = (stripKeysList ns).drop m := by
  rw [stripKeysList_eq_map, stripKeysList_eq_map, List.map_drop]

@[simp] theorem stripPS_nil : stripPS ([] : PatchSet α) = [] := rfl

theorem stripPS_append (xs ys : PatchSet α) :
    stripPS (xs ++ ys) = stripPS xs ++ stripPS ys := by
  unfold stripPS
  rw [List.map_append]

theorem lookupPatch_stripPS (ps : PatchSet α) (i : Nat) :
    lookupPatch (stripPS ps) i = Option.map stripPatch (lookupPatch ps i) := by
  induction ps with
  | nil => rfl
  | cons e rest ih =>
    obtain ⟨k, p⟩ := e
    show lookupPatch ((k, stripPatch p) :: stripPS rest) i = _
    rw [lookupPatch_cons, lookupPatch_cons]
    by_cases hk : k = i
    · rw [if_pos hk, if_pos hk]
      rfl
    · rw [if_neg hk, if_neg hk, ih]

end Strip


section StripDiff

variable {α : Type u} [DecidableEq α]

mutual

/-- Key erasure commutes with the diff walk: keys are never consulted, so
diffing the stripped trees yields the stripped patches and the same
counter. -/
theorem walk_strip (a b : Node α) (idx : Nat) :
    walk (stripKeys a) (stripKeys b) idx = (stripPS (walk a b idx).1, (walk a b idx).2) := by
  rw [walk_unfold, walk_unfold]
  by_cases h : a.value = b.value
  · rw [if_pos (by simpa using h), if_pos h, diff_children_unfold, diff_children_unfold,
      stripKeys_children, stripKeys_children, diffLoop_strip a.children b.children idx]
    by_cases hlen : b.children.length > a.children.length
    · rw [if_pos (by simpa using hlen), if_pos hlen]
      simp only [Prod.mk.injEq]
      refine ⟨?_, trivial⟩
      rw [stripPS_append, ← stripKeysList_drop, stripKeysList_length]
      rfl
    · rw [if_neg (by simpa using hlen), if_neg hlen]
  · rw [if_neg (by simpa using h), if_neg h]
    rfl
termination_by 2 * sizeOf a
decreasing_by
  simp_wf
  have := Node.sizeOf_children_lt a
  omega

/-- Key erasure commutes with the diff's child loop. -/
theorem diffLoop_strip (cs ds : List (Node α)) (idx : Nat) :
    diffLoop (stripKeysList cs) (stripKeysList ds) idx =
      (stripPS (diffLoop cs ds idx).1, (diffLoop cs ds idx).2) := by
  cases cs with
  | nil =>
    rw [stripKeysList]
    simp
  | cons c crest =>
    cases ds with
    | nil =>
      have hrec := diffLoop_strip crest [] (idx + 1)
      simp only [stripKeysList] at hrec ⊢
      rw [diffLoop_cons_nil, diffLoop_cons_nil, hrec]
      rfl
    | cons d drest =>
      have hw := walk_strip c d (idx + 1)
      have hrec := diffLoop_strip crest drest (walk c d (idx + 1)).2
      simp only [stripKeysList, diffLoop_cons_cons, hw, hrec, stripPS_append]
termination_by 2 * sizeOf cs
decreasing_by
  all_goals simp_wf
  all_goals omega

end

/-- Key erasure commutes with the public diff. -/
theorem diff_strip (a b : Node α) :
    diff (stripKeys a) (stripKeys b) = stripPS (diff a b) := by
  rw [diff, diff, walk_strip]

end StripDiff

section StripRender

variable {α : Type u}

theorem print_strip (disp : α → String) (n : Node α) (depth : Nat) (change : Bool) :
    print disp (stripKeys n) depth change = print disp n depth change := by
  rw [print, print, stripKeys_value]

mutual

/-- Key erasure commutes with the fully-marked subtree rendering. -/
theorem print_rec_strip (disp : α → String) (n : Node α) (depth : Nat) :
    print_rec disp (stripKeys n) depth = print_rec disp n depth := by
  rw [print_rec, print_rec, print_strip, stripKeys_children,
    printRecList_strip disp n.children (depth + 1)]
termination_by sizeOf n
decreasing_by
  simp_wf
  exact Node.sizeOf_children_lt n

/-- Key erasure commutes with the child loop of the marked rendering. -/
theorem printRecList_strip (disp : α → String) (ns : List (Node α)) (depth : Nat) :
    printRecList disp (stripKeysList ns) depth = printRecList disp ns depth := by
  cases ns with
  | nil =>
    rw [stripKeysList]
  | cons c crest =>
    rw [stripKeysList, printRecList, printRecList,
      print_rec_strip disp c depth, printRecList_strip disp crest depth]
termination_by sizeOf ns
decreasing_by
  all_goals simp_wf
  all_goals omega

end

theorem printRecMap_strip (disp : α → String) (ns : List (Node α)) (depth : Nat) :
    ((stripKeysList ns).map fun n => print_rec disp n depth) =
      ns.map fun n => print_rec disp n depth := by
  induction ns with
  | nil => rw [stripKeysList]
  | cons c crest ih =>
    rw [stripKeysList, List.map_cons, List.map_cons, print_rec_strip, ih]

mutual

/-- Key erasure of both the original tree and the patch payloads leaves
the applier's output and final counter unchanged: keys are never printed
and never consulted. -/
theorem apply_strip (disp : α → String) (n : Node α) (P : PatchSet α) (idx depth : Nat) :
    apply disp (stripKeys n) (stripPS P) idx depth = apply disp n P idx depth := by
  cases hl : lookupPatch P idx with
  | none =>
    have hl2 : lookupPatch (stripPS P) idx = none := by
      rw [lookupPatch_stripPS, hl]
      rfl
    rw [apply_unfold, apply_unfold, hl, hl2]
    simp only
    rw [print_strip, stripKeys_children, applyChildren_strip disp n.children P idx depth]
  | some p =>
    cases p with
    | Update m =>
      have hl2 : lookupPatch (stripPS P) idx = some (Patch.Update (stripKeys m)) := by
        rw [lookupPatch_stripPS, hl]
        rfl
      rw [apply_unfold, apply_unfold, hl, hl2]
      simp only
      rw [print_rec_strip]
    | Insert ns =>
      have hl2 : lookupPatch (stripPS P) idx = some (Patch.Insert (stripKeysList ns)) := by
        rw [lookupPatch_stripPS, hl]
        rfl
      rw [apply_unfold, apply_unfold, hl, hl2]
      simp only
      rw [print_strip, stripKeys_children, applyChildren_strip disp n.children P idx depth,
        printRecMap_strip]
    | Remove =>
      have hl2 : lookupPatch (stripPS P) idx = some Patch.Remove := by
        rw [lookupPatch_stripPS, hl]
        rfl
      rw [apply_unfold, apply_unfold, hl, hl2]
termination_by sizeOf n
decreasing_by
  all_goals simp_wf
  all_goals exact Node.sizeOf_children_lt n

/-- Key erasure leaves the applier's child loop unchanged. -/
theorem applyChildren_strip (disp : α → String) (ns : List (Node α)) (P : PatchSet α)
    (idx depth : Nat) :
    applyChildren disp (stripKeysList ns) (stripPS P) idx depth =
      applyChildren disp ns P idx depth := by
  cases ns with
  | nil =>
    rw [stripKeysList, applyChildren_nil_list, applyChildren_nil_list]
  | cons c crest =>
    rw [stripKeysList, applyChildren_cons, applyChildren_cons,
      apply_strip disp c P (idx + 1) (depth + 1),
      applyChildren_strip disp crest P (apply disp c P (idx + 1) (depth + 1)).2 depth]
termination_by sizeOf ns
decreasing_by
  all_goals simp_wf
  all_goals omega

end

/-- Key erasure leaves the public applier output unchanged. -/
theorem patch_strip (disp : α → String) (root : Node α) (P : PatchSet α) :
    patch disp (stripKeys root) (stripPS P) = patch disp root P := by
  rw [patch, patch, apply_strip]

end StripRender

section LineShape

variable {α : Type u}

theorem join_replicate_two_spaces (m : Nat) :
    (List.map String.data (List.replicate m "  ")).flatten = List.replicate (2 * m) ' ' := by
  induction m with
  | zero => rfl
  | succ k ih =>
    rw [List.replicate_succ, List.map_cons, List.flatten_cons, ih]
    have h2 : 2 * (k + 1) = 2 * k + 1 + 1 := by omega
    rw [h2, List.replicate_succ, List.replicate_succ]
    rfl

/-- The indentation for depth `d` is exactly `2 * d` spaces. -/
theorem indent_data (n : Nat) : (indent n).data = List.replicate (2 * n) ' ' := by
  rw [indent, String.data_join, join_replicate_two_spaces]

theorem print_true_eq (disp : α → String) (n : Node α) (depth : Nat) :
    print disp n depth true = indent depth ++ disp n.value ++ "(*)" := rfl

theorem print_false_eq (disp : α → String) (n : Node α) (depth : Nat) :
    print disp n depth false = indent depth ++ disp n.value := rfl

/-- Every line of the fully-marked subtree rendering is an indented value
rendering carrying the change marker, at a depth at least the subtree's
root depth. -/
theorem print_rec_lines_shape (N : Nat) :
    (∀ (disp : α → String) (n : Node α) (depth : Nat), sizeOf n ≤ N →
      ∀ line ∈ print_rec disp n depth,
        ∃ d v, depth ≤ d ∧ line = indent d ++ disp v ++ "(*)") ∧
    (∀ (disp : α → String) (ns : List (Node α)) (depth : Nat), sizeOf ns ≤ N →
      ∀ line ∈ printRecList disp ns depth,
        ∃ d v, depth ≤ d ∧ line = indent d ++ disp v ++ "(*)") := by
  induction N using Nat.strong_induction_on with
  | _ N IH =>
    constructor
    · intro disp n depth hs line hline
      rw [print_rec] at hline
      rcases List.mem_cons.1 hline with h | h
      · exact ⟨depth, n.value, Nat.le_refl _, by rw [h, print_true_eq]⟩
      · have hrec : sizeOf n.children < N :=
          Nat.lt_of_lt_of_le (Node.sizeOf_children_lt n) hs
        obtain ⟨d, v, hd, hl⟩ :=
          (IH (sizeOf n.children) hrec).2 disp n.children (depth + 1) (Nat.le_refl _) line h
        exact ⟨d, v, by omega, hl⟩
    · intro disp ns depth hs line hline
      cases ns with
      | nil =>
        rw [printRecList] at hline
        simp at hline
      | cons c crest =>
        have hcons : sizeOf (c :: crest : List (Node α)) = 1 + sizeOf c + sizeOf crest := by
          simp
        rw [printRecList] at hline
        rcases List.mem_append.1 hline with h | h
        · exact (IH (sizeOf c) (by omega)).1 disp c depth (Nat.le_refl _) line h
        · exact (IH (sizeOf crest) (by omega)).2 disp crest depth (Nat.le_refl _) line h

mutual

/-- The fully-marked subtree rendering emits one line per node. -/
theorem print_rec_length (disp : α → String) (n : Node α) (depth : Nat) :
    (print_rec disp n depth).length = size n := by
  rw [print_rec, size_eq_children]
  simp only [List.length_cons]
  rw [printRecList_length disp n.children (depth + 1)]
  omega
termination_by sizeOf n
decreasing_by
  simp_wf
  exact Node.sizeOf_children_lt n

/-- The child loop of the marked rendering emits one line per node. -/
theorem printRecList_length (disp : α → String) (ns : List (Node α)) (depth : Nat) :
    (printRecList disp ns depth).length = sizeList ns := by
  cases ns with
  | nil => rw [printRecList]; simp
  | cons c crest =>
    rw [printRecList]
    simp only [List.length_append]
    rw [print_rec_length disp c depth, printRecList_length disp crest depth]
    simp
termination_by sizeOf ns
decreasing_by
  all_goals simp_wf
  all_goals omega

end

/-- Every line the applier emits is an indented value rendering with or
without the change marker. -/
theorem apply_lines_shape (N : Nat) :
    (∀ (disp : α → String) (n : Node α) (P : PatchSet α) (idx depth : Nat), sizeOf n ≤ N →
      ∀ line ∈ (apply disp n P idx depth).1,
        ∃ (d : Nat) (v : α) (ch : Bool), line = if ch then indent d ++ disp v ++ "(*)" else indent d ++ disp v) ∧
    (∀ (disp : α → String) (ns : List (Node α)) (P : PatchSet α) (idx depth : Nat),
      sizeOf ns ≤ N →
      ∀ line ∈ (applyChildren disp ns P idx depth).1,
        ∃ (d : Nat) (v : α) (ch : Bool), line = if ch then indent d ++ disp v ++ "(*)" else indent d ++ disp v) := by
  induction N using Nat.strong_induction_on with
  | _ N IH =>
    have hmarked : ∀ (disp : α → String) (m : Node α) (depth : Nat),
        ∀ line ∈ print_rec disp m depth,
        ∃ (d : Nat) (v : α) (ch : Bool), line = if ch then indent d ++ disp v ++ "(*)" else indent d ++ disp v := by
      intro disp m depth line hline
      obtain ⟨d, v, _, hl⟩ :=
        (print_rec_lines_shape (sizeOf m)).1 disp m depth (Nat.le_refl _) line hline
      exact ⟨d, v, true, by rw [hl]; rfl⟩
    constructor
    · intro disp n P idx depth hs line hline
      rw [apply_unfold] at hline
      have hrec : sizeOf n.children < N :=
        Nat.lt_of_lt_of_le (Node.sizeOf_children_lt n) hs
      cases hl : lookupPatch P idx with
      | none =>
        rw [hl] at hline
        simp only at hline
        rcases List.mem_cons.1 hline with h | h
        · exact ⟨depth, n.value, false, by rw [h, print_false_eq]; simp⟩
        · exact (IH (sizeOf n.children) hrec).2 disp n.children P idx depth
            (Nat.le_refl _) line h
      | some p =>
        cases p with
        | Update m =>
          rw [hl] at hline
          simp only at hline
          exact hmarked disp m depth line hline
        | Insert ns =>
          rw [hl] at hline
          simp only at hline
          rcases List.mem_cons.1 hline with h | h
          · exact ⟨depth, n.value, false, by rw [h, print_false_eq]; simp⟩
          · rcases List.mem_append.1 h with h2 | h2
            · exact (IH (sizeOf n.children) hrec).2 disp n.children P idx depth
                (Nat.le_refl _) line h2
            · obtain ⟨l2, hl2, hline2⟩ := List.mem_flatten.1 h2
              obtain ⟨mnode, _, hmap⟩ := List.mem_map.1 hl2
              rw [← hmap] at hline2
              exact hmarked disp mnode (depth + 1) line hline2
        | Remove =>
          rw [hl] at hline
          simp only at hline
          simp at hline
    · intro disp ns P idx depth hs line hline
      cases ns with
      | nil =>
        rw [applyChildren_nil_list] at hline
        simp at hline
      | cons c crest =>
        have hcons : sizeOf (c :: crest : List (Node α)) = 1 + sizeOf c + sizeOf crest := by
          simp
        rw [applyChildren_cons] at hline
        rcases List.mem_append.1 hline with h | h
        · exact (IH (sizeOf c) (by omega)).1 disp c P (idx + 1) (depth + 1)
            (Nat.le_refl _) line h
        · exact (IH (sizeOf crest) (by omega)).2 disp crest P
            (apply disp c P (idx + 1) (depth + 1)).2 depth (Nat.le_refl _) line h

end LineShape

section TestTrees


/-- Full evaluation of the diff on the test harness trees. -/
theorem diff_test_eval : diff node1 node2 =
    [(2, Patch.Remove),
     (4, Patch.Update (Node.mk none "child2-2" [])),
     (5, Patch.Update (Node.mk none "child2-1" [Node.mk none "child2-1-1" []])),
     (6, Patch.Update (Node.mk (some "child4") "child4" [])),
     (0, Patch.Insert [Node.mk (some "child5") "child5" [],
        Node.mk (some "child6") "child6" [Node.mk none "child6-1" []]])] := by
  simp [diff, walk, diff_children, diffLoop, node1, node2]

end TestTrees

/-- C1 counterexample: on the test harness trees the diff does NOT contain
a second `Remove` for `child3`, does NOT contain exactly one `Update`, and
the `Insert` at the root's position batches only `child5` and `child6`,
not `child4, child5, child6`: the purely positional pairing matches
`child3` against `child4` (recording an `Update`), and both of `child2`'s
reordered children mismatch (recording two further `Update`s). -/
theorem C1_counterexample :
    ((diff node1 node2).countP fun e => Patch.isRemoveB e.2) = 1 ∧
    ((diff node1 node2).countP fun e => Patch.isRemoveB e.2) ≠ 2 ∧
    ((diff node1 node2).countP fun e => Patch.isUpdateB e.2) = 3 ∧
    ((diff node1 node2).countP fun e => Patch.isUpdateB e.2) ≠ 1 ∧
    lookupPatch (diff node1 node2) 6 =
      some (Patch.Update (Node.mk (some "child4") "child4" [])) ∧
    lookupPatch (diff node1 node2) 6 ≠ some Patch.Remove ∧
    lookupPatch (diff node1 node2) 0 =
      some (Patch.Insert [Node.mk (some "child5") "child5" [],
        Node.mk (some "child6") "child6" [Node.mk none "child6-1" []]]) ∧
    lookupPatch (diff node1 node2) 0 ≠
      some (Patch.Insert [Node.mk (some "child4") "child4" [],
        Node.mk (some "child5") "child5" [],
        Node.mk (some "child6") "child6" [Node.mk none "child6-1" []]]) := by
  rw [diff_test_eval]
  refine ⟨by simp [Patch.isRemoveB, Patch.isUpdateB], by simp [Patch.isRemoveB, Patch.isUpdateB],
    by simp [Patch.isRemoveB, Patch.isUpdateB], by simp [Patch.isRemoveB, Patch.isUpdateB],
    by simp [lookupPatch], by simp [lookupPatch], by simp [lookupPatch], by simp [lookupPatch]⟩

/-- C1 (amended): on the test harness trees the diff yields one `Remove`
at position 2 for `child1`'s former child, `Update`s at positions 4 and 5
replacing both of `child2`'s reordered children, an `Update` at position 6
replacing `child3` by `child4` (positional pairing), and one `Insert`
batching only the two trailing children `child5` and `child6` at the
root's position 0. -/
theorem C1_worked_example :
    diff node1 node2 =
      [(2, Patch.Remove),
       (4, Patch.Update (Node.mk none "child2-2" [])),
       (5, Patch.Update (Node.mk none "child2-1" [Node.mk none "child2-1-1" []])),
       (6, Patch.Update (Node.mk (some "child4") "child4" [])),
       (0, Patch.Insert [Node.mk (some "child5") "child5" [],
          Node.mk (some "child6") "child6" [Node.mk none "child6-1" []]])] :=
  diff_test_eval

/-- C2: diffing any tree against itself yields an empty patch set, and
applying that empty patch set renders exactly the plain indented pre-order
traversal of the tree — one line per node, no line marked. -/
theorem C2_identity {α : Type u} [DecidableEq α] (disp : α → String) (T : Node α) :
    diff T T = [] ∧
    patch disp T (diff T T) = plainRender disp T 0 ∧
    (patch disp T (diff T T)).length = size T := by
  have h1 : diff T T = [] := by
    rw [diff, walk_self]
  refine ⟨h1, ?_, ?_⟩
  · rw [h1, patch, apply_nil]
  · rw [h1, patch, apply_nil, plainRender_length]

/-- C3: at each compared pair, equal values record nothing at the current
position beyond what the children comparison produces (in particular the
only patch that can ever sit at that position is the children comparison's
own parent-keyed `Insert`), and the walk continues into the children;
unequal values record exactly `Update b` at the current position and do
not descend (the counter does not move). -/
theorem C3_walk_step {α : Type u} [DecidableEq α] (a b : Node α) (idx : Nat) :
    (a.value = b.value →
      walk a b idx = diff_children a.children b.children idx ∧
      ∀ p, (idx, p) ∈ (walk a b idx).1 → ∃ ns, p = Patch.Insert ns) ∧
    (a.value ≠ b.value → walk a b idx = ([(idx, Patch.Update b)], idx)) := by
  constructor
  · intro h
    constructor
    · rw [walk_unfold, if_pos h]
    · intro p hp
      obtain ⟨_, _, hk, _⟩ := diffLoop_bounds a.children b.children idx
      rw [walk_unfold, if_pos h, diff_children_unfold] at hp
      by_cases hlen : b.children.length > a.children.length
      · rw [if_pos hlen] at hp
        rcases List.mem_append.1 hp with hmem | hmem
        · have hkey : idx ∈ (diffLoop a.children b.children idx).1.map Prod.fst :=
            List.mem_map_of_mem Prod.fst hmem
          have := (hk idx hkey).1
          omega
        · simp at hmem
          exact ⟨_, hmem⟩
      · rw [if_neg hlen] at hp
        have hkey : idx ∈ (diffLoop a.children b.children idx).1.map Prod.fst :=
          List.mem_map_of_mem Prod.fst hp
        have := (hk idx hkey).1
        omega
  · intro h
    rw [walk_unfold, if_neg h]

/-- C3 witness: on two single-node trees with unequal values the walk
records exactly `Update b` at the current position and leaves the counter
unchanged. -/
theorem C3_walk_step_witness :
    walk (Node.mk none (0 : Nat) []) (Node.mk none 1 []) 7 =
      ([(7, Patch.Update (Node.mk none 1 []))], 7) :=
  (C3_walk_step (Node.mk none (0 : Nat) []) (Node.mk none 1 []) 7).2 (by simp)

/-- C4: the child loop increments the shared counter before visiting each
child slot; a slot with no `b`-counterpart records `Remove` at the
incremented counter and does not recurse into that child; and when `b` has
more children than `a` a single `Insert` holding exactly
`b.children[na..nb]` in order is recorded at the parent's own position,
the counter value at entry. -/
theorem C4_child_comparison {α : Type u} [DecidableEq α] (c d : Node α)
    (cs ds : List (Node α)) (idx : Nat) :
    diffLoop (c :: cs) ([] : List (Node α)) idx =
      ((idx + 1, Patch.Remove) :: (diffLoop cs [] (idx + 1)).1,
        (diffLoop cs [] (idx + 1)).2) ∧
    diffLoop (c :: cs) (d :: ds) idx =
      ((walk c d (idx + 1)).1 ++ (diffLoop cs ds (walk c d (idx + 1)).2).1,
        (diffLoop cs ds (walk c d (idx + 1)).2).2) ∧
    (ds.length > cs.length →
      diff_children cs ds idx =
        ((diffLoop cs ds idx).1 ++ [(idx, Patch.Insert (ds.drop cs.length))],
          (diffLoop cs ds idx).2)) ∧
    (¬ ds.length > cs.length → diff_children cs ds idx = diffLoop cs ds idx) := by
  refine ⟨diffLoop_cons_nil c cs idx, diffLoop_cons_cons c d cs ds idx, ?_, ?_⟩
  · intro h
    rw [diff_children_unfold, if_pos h]
  · intro h
    rw [diff_children_unfold, if_neg h]

/-- C4 witness: one surplus `b` child is batched as an `Insert` at the
parent's entry position. -/
theorem C4_child_comparison_witness :
    diff_children ([] : List (Node Nat)) [Node.mk none (1 : Nat) []] 5 =
      ((diffLoop ([] : List (Node Nat)) [Node.mk none (1 : Nat) []] 5).1 ++
        [(5, Patch.Insert ([Node.mk none (1 : Nat) []].drop 0))],
        (diffLoop ([] : List (Node Nat)) [Node.mk none (1 : Nat) []] 5).2) := by
  have h := (C4_child_comparison (Node.mk none (0 : Nat) []) (Node.mk none (0 : Nat) [])
    ([] : List (Node Nat)) [Node.mk none (1 : Nat) []] 5).2.2.1 (by simp)
  simpa using h

/-- C5: replaying `diff a b` over the original tree `a` aligns positions
exactly with the diff walk: the applier finishes at the very counter value
the diff finished at, every recorded patch is consumed at the position it
was recorded at, and the output is the annotated projection of `b`. -/
theorem C5_position_alignment {α : Type u} [DecidableEq α] (disp : α → String) (a b : Node α) :
    apply disp a (diff a b) 0 0 = (renderBoth disp a b 0, (walk a b 0).2) :=
  apply_walk_sim disp a b 0 0 (diff a b) (fun _ _ _ => rfl)

theorem assoc_nodup_unique {β : Type u} {l : List (Nat × β)}
    (hnd : (l.map Prod.fst).Nodup) {k : Nat} {p q : β}
    (hp : (k, p) ∈ l) (hq : (k, q) ∈ l) : p = q := by
  induction l with
  | nil => simp at hp
  | cons e rest ih =>
    obtain ⟨k0, p0⟩ := e
    rw [List.map_cons, List.nodup_cons] at hnd
    rcases List.mem_cons.1 hp with h1 | h1
    · rcases List.mem_cons.1 hq with h2 | h2
      · injection h1 with hk1 hp1
        injection h2 with hk2 hp2
        rw [hp1, hp2]
      · injection h1 with hk1 hp1
        have hm : k ∈ List.map Prod.fst rest := List.mem_map_of_mem Prod.fst h2
        rw [hk1] at hm
        exact absurd hm hnd.1
    · rcases List.mem_cons.1 hq with h2 | h2
      · injection h2 with hk2 hp2
        have hm : k ∈ List.map Prod.fst rest := List.mem_map_of_mem Prod.fst h1
        rw [hk2] at hm
        exact absurd hm hnd.1
      · exact ih hnd.2 h1 h2

/-- C6: the diff never records two patches at the same position: the
recorded position keys are pairwise distinct, so each position determines
at most one patch. -/
theorem C6_unique_positions {α : Type u} [DecidableEq α] (a b : Node α) :
    ((diff a b).map Prod.fst).Nodup ∧
    ∀ (k : Nat) (p q : Patch α), (k, p) ∈ diff a b → (k, q) ∈ diff a b → p = q := by
  have hnd : ((diff a b).map Prod.fst).Nodup := (walk_bounds a b 0).2.2.2
  exact ⟨hnd, fun _ p q hp hq => assoc_nodup_unique hnd hp hq⟩

/-- C6 witness: on two unequal single-node trees the unique patch at
position 0 is determined. -/
theorem C6_unique_positions_witness :
    Patch.Update (Node.mk none (1 : Nat) []) = Patch.Update (Node.mk none (1 : Nat) []) :=
  (C6_unique_positions (Node.mk none (0 : Nat) []) (Node.mk none (1 : Nat) [])).2
    0 (Patch.Update (Node.mk none (1 : Nat) [])) (Patch.Update (Node.mk none (1 : Nat) []))
    (by simp [diff, walk, diff_children, diffLoop])
    (by simp [diff, walk, diff_children, diffLoop])

/-- C7: a line is the node value's rendering prefixed by two spaces per
depth level (`indent depth` is exactly `2 * depth` spaces), with the fixed
marker suffix appended exactly when the node is changed; every line the
applier emits has this shape; and every line of a fully rendered
(`Update`/`Insert`) subtree — descendants included — carries the marker,
one line per node of the subtree. -/
theorem C7_line_format {α : Type u} (disp : α → String) :
    (∀ (n : Node α) (depth : Nat),
      print disp n depth true = indent depth ++ disp n.value ++ "(*)" ∧
      print disp n depth false = indent depth ++ disp n.value) ∧
    (∀ depth : Nat, (indent depth).data = List.replicate (2 * depth) ' ') ∧
    (∀ (root : Node α) (P : PatchSet α), ∀ line ∈ patch disp root P,
      ∃ (d : Nat) (v : α) (ch : Bool),
        line = if ch then indent d ++ disp v ++ "(*)" else indent d ++ disp v) ∧
    (∀ (n : Node α) (depth : Nat), ∀ line ∈ print_rec disp n depth,
      ∃ (d : Nat) (v : α), depth ≤ d ∧ line = indent d ++ disp v ++ "(*)") ∧
    (∀ (n : Node α) (depth : Nat), (print_rec disp n depth).length = size n) := by
  refine ⟨fun n depth => ⟨print_true_eq disp n depth, print_false_eq disp n depth⟩,
    indent_data, ?_, ?_, print_rec_length disp⟩
  · intro root P line hline
    rw [patch] at hline
    exact (apply_lines_shape (sizeOf root)).1 disp root P 0 0 (Nat.le_refl _) line hline
  · intro n depth line hline
    exact (print_rec_lines_shape (sizeOf n)).1 disp n depth (Nat.le_refl _) line hline

/-- C7 witness: the single line of a fully rendered leaf is a marked
indented value rendering. -/
theorem C7_line_format_witness :
    ∃ (d : Nat) (v : String), 0 ≤ d ∧
      print id (Node.mk none "x" []) 0 true = indent d ++ id v ++ "(*)" :=
  (C7_line_format id).2.2.2.1 (Node.mk none "x" []) 0
    (print id (Node.mk none "x" []) 0 true)
    (by rw [print_rec]; exact List.mem_cons_self _ _)

/-- C8: the source-style indexed child comparison, in which every child
access is fallible, never fails and agrees with the structural comparison
(no indexing is out of bounds); and a position missing from the patch set
is handled by the applier exactly as the no-patch case, never as an
error. -/
theorem C8_totality {α : Type u} [DecidableEq α] :
    (∀ (ac bc : List (Node α)) (idx : Nat),
      diff_childrenIdx ac bc idx = some (diff_children ac bc idx)) ∧
    (∀ (disp : α → String) (n : Node α) (P : PatchSet α) (idx depth : Nat),
      lookupPatch P idx = none →
      apply disp n P idx depth =
        (print disp n depth false :: (applyChildren disp n.children P idx depth).1,
          (applyChildren disp n.children P idx depth).2)) := by
  refine ⟨diff_childrenIdx_eq, ?_⟩
  intro disp n P idx depth h
  rw [apply_unfold, h]

/-- C8 witness: a lookup miss at the root renders the no-patch case. -/
theorem C8_totality_witness :
    apply id (Node.mk none "x" []) [] 0 0 =
      (print id (Node.mk none "x" []) 0 false ::
        (applyChildren id (Node.mk none "x" []).children [] 0 0).1,
        (applyChildren id (Node.mk none "x" []).children [] 0 0).2) :=
  (C8_totality).2 id (Node.mk none "x" []) [] 0 0 rfl

/-- C9: the key field has no effect on any observable output: trees equal
up to keys diff to patch sets equal up to keys, and the applier's text
output is character-for-character identical. -/
theorem C9_key_independence {α : Type u} [DecidableEq α] (disp : α → String)
    (a a' b b' : Node α)
    (ha : stripKeys a = stripKeys a') (hb : stripKeys b = stripKeys b') :
    stripPS (diff a b) = stripPS (diff a' b') ∧
    patch disp a (diff a b) = patch disp a' (diff a' b') := by
  constructor
  · rw [← diff_strip, ← diff_strip, ha, hb]
  · rw [← patch_strip disp a (diff a b), ← patch_strip disp a' (diff a' b'),
      ← diff_strip, ← diff_strip, ha, hb]

/-- C9 witness: changing only a key changes neither the (key-erased) patch
set nor the rendered output. -/
theorem C9_key_independence_witness :
    patch id (Node.mk (some "k") "v" []) (diff (Node.mk (some "k") "v" []) (Node.mk none "w" [])) =
      patch id (Node.mk none "v" []) (diff (Node.mk none "v" []) (Node.mk none "w" [])) :=
  (C9_key_independence id (Node.mk (some "k") "v" []) (Node.mk none "v" [])
    (Node.mk none "w" []) (Node.mk none "w" [])
    (by simp [stripKeys, stripKeysList]) rfl).2

/-- C10: every position recorded by the diff is strictly below the node
count of the first tree: the counter increments at most once per node of
`A`, so no key can exceed `|A| - 1`, however large `B` is. -/
theorem C10_position_range {α : Type u} [DecidableEq α] (a b : Node α) :
    ∀ k ∈ (diff a b).map Prod.fst, k < size a := by
  intro k hk
  obtain ⟨_, h2, hkk, _⟩ := walk_bounds a b 0
  have hb := (hkk k hk).2
  have hsz := size_eq_children a
  omega

/-- C10 witness: the single recorded position 0 is below the one-node
size of the original tree. -/
theorem C10_position_range_witness : (0 : Nat) < size (Node.mk none (0 : Nat) []) :=
  C10_position_range (Node.mk none (0 : Nat) []) (Node.mk none (1 : Nat) []) 0
    (by simp [diff, walk, diff_children, diffLoop])
